import Mathlib

/-!
Verification development for the labelled multi-dimensional array data
model described in the eo2cube tutorial book.  The repository itself is a
set of notebooks driving an external labelled-array library (`xarray`),
so the semantics below are a shallow embedding of the data model and the
selection / reduction / masking / interpolation / merge / lazy-evaluation
layers as the tutorial's design document specifies them.

Coordinate labels (timestamps, spatial positions) are embedded as
integers: a date such as "2020-12-25" is its day number, so the order on
labels is the order on `Int`.
-/

namespace EOCube

/-- Modelled from the spec: a Coordinate is an ordered, axis-associated
sequence of label values; it must be monotonic for label range-slicing to
be well-defined.  Monotonicity (non-decreasing) of a label sequence,
computed by scanning adjacent pairs. -/
def monotonicB : List Int → Bool
  | [] => true
  | [_] => true
  | a :: b :: rest => decide (a ≤ b) && monotonicB (b :: rest)

/-- A label sequence is monotonic when the adjacent-pair scan accepts it. -/
def Monotonic (coord : List Int) : Prop :=
  monotonicB coord = true

instance (coord : List Int) : Decidable (Monotonic coord) :=
  inferInstanceAs (Decidable (monotonicB coord = true))

/-- Modelled from the spec: label-based range selection (`sel` with
`slice(lo, hi)`) on a monotonic coordinate axis keeps exactly the labels
`v` with `lo ≤ v` and `v ≤ hi` — BOTH endpoints inclusive. -/
def selSlice (coord : List Int) (lo hi : Int) : List Int :=
  coord.filter (fun v => decide (lo ≤ v) && decide (v ≤ hi))

/-- Modelled from the spec: position-based range selection (`isel` with
`slice(i, j)`) keeps the positions `i, i+1, ..., j-1` — start inclusive,
stop exclusive (ordinary half-open slicing). -/
def iselSlice (xs : List Int) (i j : Nat) : List Int :=
  (xs.drop i).take (j - i)

theorem selSlice_mem (coord : List Int) (lo hi v : Int) :
    v ∈ selSlice coord lo hi ↔ v ∈ coord ∧ lo ≤ v ∧ v ≤ hi := by
  simp [selSlice, List.mem_filter, and_assoc]

theorem iselSlice_length (xs : List Int) (i j : Nat)
    (hj : j ≤ xs.length) :
    (iselSlice xs i j).length = j - i := by
  simp [iselSlice, List.length_take, List.length_drop]
  omega

/-- C1: on a monotonic coordinate axis, label-based range selection with
bounds `(lo, hi)` whose endpoints are present in the coordinate sequence
includes both endpoint labels in the result (both bounds inclusive). -/
theorem label_slice_includes_both_endpoints (coord : List Int) (lo hi : Int)
    (hmono : Monotonic coord) (hlo : lo ∈ coord) (hhi : hi ∈ coord)
    (hle : lo ≤ hi) :
    lo ∈ selSlice coord lo hi ∧ hi ∈ selSlice coord lo hi := by
  constructor
  · exact (selSlice_mem coord lo hi lo).mpr ⟨hlo, le_refl lo, hle⟩
  · exact (selSlice_mem coord lo hi hi).mpr ⟨hhi, hle, le_refl hi⟩

/-- C1 witness: a December-2020 time coordinate (labels are day numbers,
"2020-12-01" = 1, …, "2020-12-25" = 25); label-slicing with bounds
("2020-12-01", "2020-12-25") includes the sample dated exactly
"2020-12-25". -/
theorem label_slice_includes_both_endpoints_witness :
    Monotonic [1, 5, 10, 15, 20, 25] ∧
      (25 : Int) ∈ selSlice [1, 5, 10, 15, 20, 25] 1 25 :=
  ⟨by decide,
    (label_slice_includes_both_endpoints [1, 5, 10, 15, 20, 25] 1 25
      (by decide) (by decide) (by decide) (by decide)).2⟩

/-- C2: position-based range selection `[i, j)` returns exactly `j − i`
elements (start-inclusive, stop-exclusive half-open convention), and for
`i < j` the first element of the result is the element at position `i` of
the input. -/
theorem isel_slice_half_open (xs : List Int) (i j : Nat)
    (hij : i ≤ j) (hj : j ≤ xs.length) :
    (iselSlice xs i j).length = j - i ∧
      (i < j → (iselSlice xs i j)[0]? = xs[i]?) := by
  refine ⟨iselSlice_length xs i j hj, fun hlt => ?_⟩
  simp [iselSlice, List.getElem?_take, List.getElem?_drop]
  omega

/-- C2 witness: on a time axis of length 35 (positions 0..34), selecting
positions `[0, 5)` yields a length-5 result whose first element equals the
element at position 0. -/
theorem isel_slice_half_open_witness :
    (iselSlice (List.range 35 |>.map Int.ofNat) 0 5).length = 5 - 0 ∧
      (0 < 5 → (iselSlice (List.range 35 |>.map Int.ofNat) 0 5)[0]? =
        (List.range 35 |>.map Int.ofNat)[0]?) :=
  isel_slice_half_open (List.range 35 |>.map Int.ofNat) 0 5
    (by decide) (by decide)

/-- Modelled from the spec: the conditional masking layer (`where`).
Positions passing the boolean predicate are unchanged; positions failing
it are replaced by the configurable fill value. -/
def maskWhere (pred : Int → Bool) (fill : Int) (xs : List Int) : List Int :=
  xs.map (fun v => if pred v then v else fill)

/-- C3: masking returns an output of identical shape in which every
position failing the predicate holds the fill value and every position
passing it is unchanged; in particular, masking [650, 700, 720, 680] with
predicate "value > 700" and fill −9999 yields [−9999, −9999, 720, −9999]. -/
theorem where_mask_semantics (pred : Int → Bool) (fill : Int) (xs : List Int) :
    (maskWhere pred fill xs).length = xs.length ∧
      (∀ i : Nat, (maskWhere pred fill xs)[i]? =
        xs[i]?.map (fun v => if pred v then v else fill)) ∧
      maskWhere (fun v => decide (700 < v)) (-9999)
        [650, 700, 720, 680] = [-9999, -9999, 720, -9999] := by
  refine ⟨by simp [maskWhere], fun i => ?_, by decide⟩
  simp [maskWhere, List.getElem?_map]

/-- Modelled from the spec: a Container holds a set of named variables
and an ordered time-coordinate sequence shared by them (the one axis the
merge scenario exercises). -/
structure Container where
  vars : List String
  timeCoord : List Int
  deriving DecidableEq

/-- Modelled from the spec: the merge layer.  The default ("inner")
merge joins the shared time axis by intersection — keeping the first
container's coordinate values that are also present in the second — and
takes the union of the two variable sets. -/
def merge (a b : Container) : Container :=
  { vars := a.vars ++ b.vars.filter (fun v => decide (v ∉ a.vars)),
    timeCoord := a.timeCoord.filter (fun t => decide (t ∈ b.timeCoord)) }

/-- C5: the default merge's time coordinate is the intersection of the
two inputs' time coordinates and its variable set is the union of both
inputs' variables; in particular, intersection-merging containers whose
time axes hold {T1, T2} and {T2, T3} yields a time axis of exactly {T2}
(with T1 = 1, T2 = 2, T3 = 3). -/
theorem merge_intersection_semantics (a b : Container) :
    (∀ t : Int, t ∈ (merge a b).timeCoord ↔
        t ∈ a.timeCoord ∧ t ∈ b.timeCoord) ∧
      (∀ v : String, v ∈ (merge a b).vars ↔ v ∈ a.vars ∨ v ∈ b.vars) ∧
      (merge ⟨["red"], [1, 2]⟩ ⟨["ndvi"], [2, 3]⟩).timeCoord = [2] := by
  refine ⟨fun t => ?_, fun v => ?_, by decide⟩
  · simp [merge, List.mem_filter]
  · constructor
    · intro hv
      simp only [merge, List.mem_append, List.mem_filter] at hv
      rcases hv with h | ⟨h, _⟩
      · exact Or.inl h
      · exact Or.inr h
    · intro hv
      simp only [merge, List.mem_append, List.mem_filter, decide_eq_true_eq]
      by_cases hva : v ∈ a.vars
      · exact Or.inl hva
      · rcases hv with h | h
        · exact absurd h hva
        · exact Or.inr ⟨h, hva⟩

/-- Modelled from the spec: the grouping layer partitions positions by
equality of a derived key, with output groups in first-encountered order
of the key.  First-encountered-order de-duplication of a key sequence. -/
def dedupFirst (ks : List Int) : List Int :=
  ks.foldl (fun acc k => if k ∈ acc then acc else acc ++ [k]) []

theorem dedupFirst_go_mem (ks acc : List Int) (a : Int) :
    a ∈ ks.foldl (fun acc k => if k ∈ acc then acc else acc ++ [k]) acc ↔
      a ∈ acc ∨ a ∈ ks := by
  induction ks generalizing acc with
  | nil => simp
  | cons k rest ih =>
    simp only [List.foldl_cons, ih, List.mem_cons]
    by_cases hk : k ∈ acc
    · simp only [if_pos hk]
      constructor
      · rintro (h | h)
        · exact Or.inl h
        · exact Or.inr (Or.inr h)
      · rintro (h | h | h)
        · exact Or.inl h
        · exact Or.inl (h ▸ hk)
        · exact Or.inr h
    · simp only [if_neg hk, List.mem_append, List.mem_singleton]
      tauto

theorem dedupFirst_go_nodup (ks acc : List Int) (hacc : acc.Nodup) :
    (ks.foldl (fun acc k => if k ∈ acc then acc else acc ++ [k]) acc).Nodup := by
  induction ks generalizing acc with
  | nil => exact hacc
  | cons k rest ih =>
    simp only [List.foldl_cons]
    by_cases hk : k ∈ acc
    · simpa [if_pos hk] using ih acc hacc
    · rw [if_neg hk]
      refine ih (acc ++ [k]) ?_
      simp [List.nodup_append, hacc, hk]

theorem dedupFirst_mem (ks : List Int) (a : Int) :
    a ∈ dedupFirst ks ↔ a ∈ ks := by
  simpa using dedupFirst_go_mem ks [] a

theorem dedupFirst_nodup (ks : List Int) : (dedupFirst ks).Nodup :=
  dedupFirst_go_nodup ks [] List.nodup_nil

/-- The distinct group keys of a time series of (key, value) samples, in
first-encountered order. -/
def groupKeys (ts : List (Int × Int)) : List Int :=
  dedupFirst (ts.map Prod.fst)

/-- The values of the samples whose derived key equals `k`. -/
def groupVals (ts : List (Int × Int)) (k : Int) : List Int :=
  (ts.filter (fun p => decide (p.1 = k))).map Prod.snd

/-- Modelled from the spec: grouped reduction (`groupby` + reduce) —
partition samples along the axis by equality of the derived key, then
apply the reduction to each partition independently. -/
def groupbyReduce (red : List Int → Int) (ts : List (Int × Int)) :
    List (Int × Int) :=
  (groupKeys ts).map (fun k => (k, red (groupVals ts k)))

theorem nodup_two_length (l : List Int) (y1 y2 : Int)
    (hnd : l.Nodup) (hsub : ∀ a ∈ l, a = y1 ∨ a = y2)
    (h1 : y1 ∈ l) (h2 : y2 ∈ l) (hne : y1 ≠ y2) : l.length = 2 := by
  have hfin : l.toFinset = {y1, y2} := by
    ext a
    simp only [List.mem_toFinset, Finset.mem_insert, Finset.mem_singleton]
    constructor
    · exact hsub a
    · rintro (rfl | rfl)
      · exact h1
      · exact h2
  have hcard : l.toFinset.card = l.length := List.toFinset_card_of_nodup hnd
  rw [hfin] at hcard
  rw [← hcard, Finset.card_pair hne]

/-- C4: for a time series whose samples span exactly two calendar years
`y1 ≠ y2` (every derived key is one of them and both occur), grouped
reduction yields exactly 2 output groups, and each group's value is the
reduction of exactly the samples whose key equals that group's key — no
contamination from the other partition. -/
theorem groupby_year_two_groups (red : List Int → Int)
    (ts : List (Int × Int)) (y1 y2 : Int)
    (hspan : ∀ p ∈ ts, p.1 = y1 ∨ p.1 = y2)
    (h1 : y1 ∈ ts.map Prod.fst) (h2 : y2 ∈ ts.map Prod.fst)
    (hne : y1 ≠ y2) :
    (groupbyReduce red ts).length = 2 ∧
      ∀ g ∈ groupbyReduce red ts, g.2 = red (groupVals ts g.1) := by
  constructor
  · have hlen : (groupKeys ts).length = 2 := by
      refine nodup_two_length (groupKeys ts) y1 y2 (dedupFirst_nodup _) ?_ ?_ ?_ hne
      · intro a ha
        rw [groupKeys, dedupFirst_mem, List.mem_map] at ha
        obtain ⟨p, hp, rfl⟩ := ha
        exact hspan p hp
      · rw [groupKeys, dedupFirst_mem]; exact h1
      · rw [groupKeys, dedupFirst_mem]; exact h2
    simpa [groupbyReduce] using hlen
  · intro g hg
    rw [groupbyReduce, List.mem_map] at hg
    obtain ⟨k, _, rfl⟩ := hg
    rfl

/-- C4 witness: a two-year series (year 2020 with samples 10, 20 and year
2021 with sample 30), grouped by year and reduced by sum, yields exactly
2 groups, each aggregating only its own year's samples. -/
theorem groupby_year_two_groups_witness :
    (groupbyReduce (fun vs => vs.sum)
        [(2020, 10), (2020, 20), (2021, 30)]).length = 2 ∧
      ∀ g ∈ groupbyReduce (fun vs => vs.sum)
          [(2020, 10), (2020, 20), (2021, 30)],
        g.2 = (fun vs => vs.sum)
          (groupVals [(2020, 10), (2020, 20), (2021, 30)] g.1) :=
  groupby_year_two_groups (fun vs => vs.sum)
    [(2020, 10), (2020, 20), (2021, 30)] 2020 2021
    (by decide) (by decide) (by decide) (by decide)


/-- Modelled from the spec: a per-axis selector — either a single
position (which drops the axis) or a list of positions (which keeps it). -/
inductive Selector where
  | single (i : Nat)
  | positions (l : List Nat)

/-- Modelled from the spec: the effect of a per-axis selector on the
shape of an Array, given as its ordered list of (axis name, length)
pairs.  A single position removes the axis from the shape; a list of
positions keeps the axis with the new coordinate length. -/
def selShape (shape : List (String × Nat)) (axis : String) (s : Selector) :
    List (String × Nat) :=
  shape.flatMap (fun d =>
    if d.1 = axis then
      match s with
      | .single _ => []
      | .positions l => [(d.1, l.length)]
    else [d])

theorem selShape_cons (d : String × Nat) (rest : List (String × Nat))
    (axis : String) (s : Selector) :
    selShape (d :: rest) axis s =
      (if d.1 = axis then
        (match s with
        | .single _ => []
        | .positions l => [(d.1, l.length)])
      else [d]) ++ selShape rest axis s := rfl

theorem selShape_single_eq_filter (shape : List (String × Nat))
    (axis : String) (i : Nat) :
    selShape shape axis (Selector.single i) =
      shape.filter (fun d => decide (¬ d.1 = axis)) := by
  induction shape with
  | nil => rfl
  | cons d rest ih =>
    rw [selShape_cons, ih]
    by_cases hd : d.1 = axis
    · simp [hd]
    · simp [hd]

theorem selShape_positions_eq_map (shape : List (String × Nat))
    (axis : String) (l : List Nat) :
    selShape shape axis (Selector.positions l) =
      shape.map (fun d => if d.1 = axis then (axis, l.length) else d) := by
  induction shape with
  | nil => rfl
  | cons d rest ih =>
    rw [selShape_cons, ih]
    by_cases hd : d.1 = axis
    · simp [hd]
    · simp [hd]

/-- C7: selecting an axis down to a single position removes that axis
from the result's shape, while selecting with a list of positions of
length ≥ 1 preserves the axis with a new coordinate length equal to the
number of selected positions (all other axes unchanged). -/
theorem select_shape_dimensionality (shape : List (String × Nat))
    (axis : String) (i : Nat) (l : List Nat) (hl : 1 ≤ l.length) :
    selShape shape axis (Selector.single i) =
        shape.filter (fun d => decide (¬ d.1 = axis)) ∧
      axis ∉ (selShape shape axis (Selector.single i)).map Prod.fst ∧
      selShape shape axis (Selector.positions l) =
        shape.map (fun d => if d.1 = axis then (axis, l.length) else d) := by
  refine ⟨selShape_single_eq_filter shape axis i, ?_,
    selShape_positions_eq_map shape axis l⟩
  rw [selShape_single_eq_filter]
  intro hmem
  rw [List.mem_map] at hmem
  obtain ⟨d, hd, rfl⟩ := hmem
  rw [List.mem_filter] at hd
  exact (decide_eq_true_eq.mp hd.2) rfl

/-- C7 witness: on a (time 35, y 100, x 200) shape, a single position on
`time` drops the axis, and a two-position list on `time` keeps it with
length 2. -/
theorem select_shape_dimensionality_witness :
    selShape [("time", 35), ("y", 100), ("x", 200)] "time"
        (Selector.single 0) =
      ([("time", 35), ("y", 100), ("x", 200)].filter
        (fun d => decide (¬ d.1 = "time"))) ∧
      "time" ∉ (selShape [("time", 35), ("y", 100), ("x", 200)] "time"
        (Selector.single 0)).map Prod.fst ∧
      selShape [("time", 35), ("y", 100), ("x", 200)] "time"
        (Selector.positions [0, 1]) =
      ([("time", 35), ("y", 100), ("x", 200)].map
        (fun d => if d.1 = "time" then ("time", ([0, 1] : List Nat).length)
          else d)) :=
  select_shape_dimensionality [("time", 35), ("y", 100), ("x", 200)]
    "time" 0 [0, 1] (by decide)

/-- Modelled from the spec: the two distinct selection failure
conditions — a label missing from a Coordinate sequence, and a position
index out of range. -/
inductive SelError where
  | labelNotFound
  | indexOutOfRange
  deriving DecidableEq

/-- Position of the first occurrence of a label in a coordinate
sequence, if any. -/
def lookupIdx (coord : List Int) (l : Int) : Option Nat :=
  match coord with
  | [] => none
  | c :: rest => if c = l then some 0 else (lookupIdx rest l).map (· + 1)

/-- Modelled from the spec: label-based point selection (`sel` without
nearest-neighbor matching) resolves the label against the Coordinate
sequence and signals a lookup failure when it is absent. -/
def selLabel (coord : List Int) (l : Int) : Except SelError Nat :=
  match lookupIdx coord l with
  | some i => .ok i
  | none => .error .labelNotFound

/-- Modelled from the spec: position-based point selection (`isel`)
signals an out-of-range error for an invalid position index. -/
def iselIndex (xs : List Int) (i : Nat) : Except SelError Int :=
  if h : i < xs.length then .ok (xs.get ⟨i, h⟩)
  else .error .indexOutOfRange

theorem lookupIdx_eq_none (coord : List Int) (l : Int) (hl : l ∉ coord) :
    lookupIdx coord l = none := by
  induction coord with
  | nil => rfl
  | cons c rest ih =>
    rw [List.mem_cons, not_or] at hl
    have hcl : ¬ c = l := fun h => hl.1 h.symm
    simp [lookupIdx, hcl, ih hl.2]

/-- C8: requesting a label absent from the Coordinate sequence signals a
lookup failure (it does not return a result), an out-of-range position
signals an out-of-range error, and the two failure conditions are
distinct. -/
theorem absent_label_distinct_failure (coord : List Int) (l : Int)
    (xs : List Int) (i : Nat) (hl : l ∉ coord) (hi : xs.length ≤ i) :
    selLabel coord l = .error .labelNotFound ∧
      iselIndex xs i = .error .indexOutOfRange ∧
      SelError.labelNotFound ≠ SelError.indexOutOfRange := by
  refine ⟨?_, ?_, by decide⟩
  · rw [selLabel, lookupIdx_eq_none coord l hl]
  · rw [iselIndex, dif_neg (by omega)]

/-- C8 witness: label 7 is absent from the coordinate [1, 2, 3], and
position 5 is out of range for a length-3 axis. -/
theorem absent_label_distinct_failure_witness :
    selLabel [1, 2, 3] 7 = .error .labelNotFound ∧
      iselIndex [1, 2, 3] 5 = .error .indexOutOfRange ∧
      SelError.labelNotFound ≠ SelError.indexOutOfRange :=
  absent_label_distinct_failure [1, 2, 3] 7 [1, 2, 3] 5
    (by decide) (by decide)

/-- Modelled from the spec: the failure condition of the interpolation
layer when a target coordinate has no valid pair of neighbors. -/
inductive InterpError where
  | extrapolationUnsupported
  deriving DecidableEq

/-- Modelled from the spec: the interpolation layer (`interp`).  Samples
are (coordinate, value) pairs in axis order; for a target coordinate the
nearest existing neighbor before and after it are located and the
default rule — linear in coordinate distance — is applied.  A target
outside the covered range has no valid pair of neighbors and signals the
extrapolation-unsupported condition. -/
def interpAt : List (Int × ℚ) → Int → Except InterpError ℚ
  | [], _ => .error .extrapolationUnsupported
  | [(c, v)], t => if t = c then .ok v else .error .extrapolationUnsupported
  | (c1, v1) :: (c2, v2) :: rest, t =>
      if t < c1 then .error .extrapolationUnsupported
      else if t ≤ c2 then
        .ok (v1 + (v2 - v1) * (((t : ℚ) - (c1 : ℚ)) / ((c2 : ℚ) - (c1 : ℚ))))
      else interpAt ((c2, v2) :: rest) t

/-- C9: an interpolation target outside the covered coordinate range —
strictly below every sample coordinate or strictly above every sample
coordinate — signals the distinct extrapolation-unsupported condition
rather than producing a value. -/
theorem interp_outside_range_errors (pts : List (Int × ℚ)) (t : Int)
    (hne : pts ≠ [])
    (hout : (∀ p ∈ pts, t < p.1) ∨ (∀ p ∈ pts, p.1 < t)) :
    interpAt pts t = .error .extrapolationUnsupported := by
  induction pts with
  | nil => exact absurd rfl hne
  | cons hd tl ih =>
    obtain ⟨c1, v1⟩ := hd
    cases tl with
    | nil =>
      have hne1 : ¬ t = c1 := by
        rcases hout with h | h
        · have := h (c1, v1) (List.mem_singleton_self _); omega
        · have := h (c1, v1) (List.mem_singleton_self _); omega
      simp [interpAt, hne1]
    | cons hd2 tl2 =>
      obtain ⟨c2, v2⟩ := hd2
      rcases hout with h | h
      · have h1 : t < c1 := h (c1, v1) (List.mem_cons_self _ _)
        simp [interpAt, h1]
      · have h1 : c1 < t := h (c1, v1) (List.mem_cons_self _ _)
        have h2 : c2 < t := h (c2, v2)
          (List.mem_cons_of_mem _ (List.mem_cons_self _ _))
        have hn1 : ¬ t < c1 := by omega
        have hn2 : ¬ t ≤ c2 := by omega
        show (if t < c1 then Except.error .extrapolationUnsupported
          else if t ≤ c2 then
            Except.ok (v1 + (v2 - v1) *
              (((t : ℚ) - (c1 : ℚ)) / ((c2 : ℚ) - (c1 : ℚ))))
          else interpAt ((c2, v2) :: tl2) t) =
            Except.error .extrapolationUnsupported
        rw [if_neg hn1, if_neg hn2]
        refine ih (List.cons_ne_nil _ _) (Or.inr ?_)
        intro p hp
        exact h p (List.mem_cons_of_mem _ hp)

/-- C9 witness: an axis covering coordinates 1 and 3; interpolating at
target 5 (beyond the covered range) signals the
extrapolation-unsupported failure. -/
theorem interp_outside_range_errors_witness :
    interpAt [(1, 10), (3, 30)] 5 = .error .extrapolationUnsupported :=
  interp_outside_range_errors [(1, 10), (3, 30)] 5 (by simp)
    (Or.inr (by decide))

/-- Modelled from the spec and notebooks: a numeric cell value — either
a finite floating-point number or the NaN missing sentinel. -/
inductive Val where
  | vfloat (q : ℚ)
  | vnan
  deriving DecidableEq

/-- The value type of a band array. -/
inductive DType where
  | dint
  | dfloat
  deriving DecidableEq

/-- Modelled from the notebooks: a band array is either integer-valued
(as loaded from the data cube, e.g. uint16 reflectances) or
floating-point-valued (after conversion). -/
inductive NDArr where
  | ints (xs : List Int)
  | floats (vs : List Val)
  deriving DecidableEq

/-- The value type of an array. -/
def dtype : NDArr → DType
  | .ints _ => .dint
  | .floats _ => .dfloat

/-- Modelled from the notebooks: `odc.algo.to_f32` converts an integer
band to floating point, value for value. -/
def to_f32 (xs : List Int) : List Val :=
  xs.map (fun (v : Int) => Val.vfloat (v : ℚ))

/-- Masking at the value level with an explicit fill value. -/
def whereVal (pred : Val → Bool) (fill : Val) (vs : List Val) : List Val :=
  vs.map (fun v => if pred v then v else fill)

/-- Modelled from the notebooks: `where` with the default fill on an
integer band — the values are promoted to floating point and failing
positions receive the NaN missing sentinel. -/
def maskDefaultVals (pred : Val → Bool) (xs : List Int) : List Val :=
  whereVal pred Val.vnan (to_f32 xs)

/-- The array produced by default-fill masking of an integer band. -/
def maskDefaultInt (pred : Val → Bool) (xs : List Int) : NDArr :=
  .floats (maskDefaultVals pred xs)

/-- C10: default-fill masking of an integer band produces a
floating-point array — its value type differs from the integer input's —
whose shape is unchanged, whose failing positions hold the NaN sentinel
and whose passing positions hold the float conversion of the original
value; NaN is not equal to any finite float value, so the conversion
(`to_f32`, which the masking pipeline factors through) is what makes
NaN-filled masking meaningful on integer bands. -/
theorem where_default_nan_promotes_dtype (pred : Val → Bool)
    (xs : List Int) :
    maskDefaultInt pred xs = NDArr.floats (whereVal pred Val.vnan (to_f32 xs)) ∧
      dtype (maskDefaultInt pred xs) = DType.dfloat ∧
      dtype (NDArr.ints xs) = DType.dint ∧
      dtype (maskDefaultInt pred xs) ≠ dtype (NDArr.ints xs) ∧
      (maskDefaultVals pred xs).length = xs.length ∧
      (∀ i : Nat, (maskDefaultVals pred xs)[i]? =
        xs[i]?.map (fun v =>
          if pred (Val.vfloat (v : ℚ)) then Val.vfloat (v : ℚ)
          else Val.vnan)) ∧
      (∀ q : ℚ, Val.vnan ≠ Val.vfloat q) := by
  refine ⟨rfl, rfl, rfl, by simp [dtype, maskDefaultInt], ?_, ?_, ?_⟩
  · rw [maskDefaultVals, whereVal, to_f32, List.length_map, List.length_map]
  · intro i
    rw [maskDefaultVals, whereVal, to_f32, List.map_map, List.getElem?_map]
    cases xs[i]? with
    | none => rfl
    | some v => rfl
  · intro q h
    exact Val.noConfusion h

/-- Modelled from the spec: the per-variable content the lazy layer
distributes — a time-labelled series of (coordinate label, value)
samples in axis order. -/
abbrev Series := List (Int × ℚ)

/-- Modelled from the spec: the deferred operation nodes a lazy task
graph records, drawn from the selection, masking, arithmetic and merge
layers — elementwise band arithmetic, conditional masking, label-based
range selection, position-based range selection, and the coordinate
join of a merge with another container's shared axis.  (The reduction
and interpolation layers appear as terminal stages of the graph below.) -/
inductive SOp where
  | mapOp (f : ℚ → ℚ)
  | maskOp (pred : ℚ → Bool) (fill : ℚ)
  | selLabelOp (lo hi : Int)
  | iselOp (i j : Nat)
  | joinOp (other : List Int)

/-- Eager (immediate) evaluation of one deferred node, following the
layer contracts: elementwise map, fill-on-failure masking, inclusive
label slicing, half-open position slicing, and intersection join on the
shared coordinate axis. -/
def applySOp : SOp → Series → Series
  | .mapOp f, s => s.map (fun p => (p.1, f p.2))
  | .maskOp pred fill, s => s.map (fun p => (p.1, if pred p.2 then p.2 else fill))
  | .selLabelOp lo hi, s => s.filter (fun p => decide (lo ≤ p.1) && decide (p.1 ≤ hi))
  | .iselOp i j, s => (s.drop i).take (j - i)
  | .joinOp other, s => s.filter (fun p => decide (p.1 ∈ other))

/-- Eager evaluation of a recorded operation chain. -/
def applySChain (ops : List SOp) (s : Series) : Series :=
  ops.foldl (fun acc op => applySOp op acc) s

/-- Modelled from the spec: a chunk plan partitions the underlying
storage into independently computable blocks, one block per planned
size, with any remainder forming a final block. -/
def chunksBy {α : Type} : List Nat → List α → List (List α)
  | [], xs => if xs.isEmpty then [] else [xs]
  | n :: ns, xs => if xs.isEmpty then [] else xs.take n :: chunksBy ns (xs.drop n)

theorem chunksBy_flatten {α : Type} (plan : List Nat) (xs : List α) :
    (chunksBy plan xs).flatten = xs := by
  induction plan generalizing xs with
  | nil =>
    by_cases h : xs.isEmpty
    · simp [chunksBy, h, List.isEmpty_iff.mp h]
    · simp [chunksBy, h]
  | cons n ns ih =>
    by_cases h : xs.isEmpty
    · simp [chunksBy, h, List.isEmpty_iff.mp h]
    · simp [chunksBy, h, ih]

/-- Position-based selection distributed over chunks: each block keeps
its own part of the global position range, the range being shifted past
each block in turn — the genuinely cross-chunk part of deferring
`isel`, since positions are global while blocks are local. -/
def chunkSlice {α : Type} (i j : Nat) : List (List α) → List (List α)
  | [] => []
  | c :: cs => ((c.drop i).take (j - i)) :: chunkSlice (i - c.length) (j - c.length) cs

theorem chunkSlice_flatten {α : Type} (cs : List (List α)) :
    ∀ i j : Nat, (chunkSlice i j cs).flatten = ((cs.flatten).drop i).take (j - i) := by
  induction cs with
  | nil => intro i j; simp [chunkSlice]
  | cons c cs ih =>
    intro i j
    have h : (j - i) - (c.length - i) = (j - c.length) - (i - c.length) := by
      omega
    rw [chunkSlice, List.flatten_cons, ih, List.flatten_cons,
      List.drop_append_eq_append_drop, List.take_append_eq_append_take,
      List.length_drop, h]

/-- Modelled from the spec: chunk-local execution of one deferred node.
Elementwise, masking, label-selection and join nodes act block by
block; position-based selection distributes the global range across
blocks. -/
def applySOpChunks : SOp → List Series → List Series
  | .mapOp f, cs => cs.map (fun c => applySOp (.mapOp f) c)
  | .maskOp pred fill, cs => cs.map (fun c => applySOp (.maskOp pred fill) c)
  | .selLabelOp lo hi, cs => cs.map (fun c => applySOp (.selLabelOp lo hi) c)
  | .iselOp i j, cs => chunkSlice i j cs
  | .joinOp other, cs => cs.map (fun c => applySOp (.joinOp other) c)

/-- Chunked execution of a recorded operation chain. -/
def applySChainChunks (ops : List SOp) (cs : List Series) : List Series :=
  ops.foldl (fun acc op => applySOpChunks op acc) cs

theorem applySOpChunks_flatten (op : SOp) (cs : List Series) :
    (applySOpChunks op cs).flatten = applySOp op cs.flatten := by
  cases op with
  | mapOp f => simp [applySOpChunks, applySOp, List.map_flatten]
  | maskOp pred fill => simp [applySOpChunks, applySOp, List.map_flatten]
  | selLabelOp lo hi => simp [applySOpChunks, applySOp, List.filter_flatten]
  | iselOp i j => exact chunkSlice_flatten cs i j
  | joinOp other => simp [applySOpChunks, applySOp, List.filter_flatten]

theorem applySChainChunks_flatten (ops : List SOp) (cs : List Series) :
    (applySChainChunks ops cs).flatten = applySChain ops cs.flatten := by
  induction ops generalizing cs with
  | nil => rfl
  | cons op rest ih =>
    show (applySChainChunks rest (applySOpChunks op cs)).flatten =
      applySChain rest (applySOp op cs.flatten)
    rw [ih, applySOpChunks_flatten]

/-- Total reduction terminal: the sum of the series values. -/
def sumT (s : Series) : ℚ :=
  (s.map Prod.snd).sum

/-- Grouped reduction terminal: partition samples by the key derived
from the coordinate (e.g. calendar year from a timestamp), keys in
first-encountered order, one summed value per key. -/
def groupSumT (key : Int → Int) (s : Series) : List (Int × ℚ) :=
  (dedupFirst (s.map (fun p => key p.1))).map
    (fun k => (k, ((s.filter (fun p => decide (key p.1 = k))).map Prod.snd).sum))

/-- The nearest existing neighbor at or before the target along the
axis. -/
def leftNb (s : Series) (t : Int) : Option (Int × ℚ) :=
  (s.filter (fun p => decide (p.1 ≤ t))).getLast?

/-- The nearest existing neighbor at or after the target along the
axis. -/
def rightNb (s : Series) (t : Int) : Option (Int × ℚ) :=
  (s.filter (fun p => decide (t ≤ p.1))).head?

/-- The default linear interpolation rule applied to the pair of
bracketing neighbors; without a valid pair the extrapolation-unsupported
condition is signalled. -/
def nbLinear (t : Int) : Option (Int × ℚ) → Option (Int × ℚ) → Except InterpError ℚ
  | some l, some r =>
      .ok (l.2 + (r.2 - l.2) * (((t : ℚ) - (l.1 : ℚ)) / ((r.1 : ℚ) - (l.1 : ℚ))))
  | _, _ => .error .extrapolationUnsupported

/-- Interpolation terminal: one value (or failure) per target
coordinate, from the bracketing neighbors in the series. -/
def interpT (ts : List Int) (s : Series) : List (Except InterpError ℚ) :=
  ts.map (fun t => nbLinear t (leftNb s t) (rightNb s t))

/-- Chunked total reduction: combine the per-chunk partial sums. -/
def sumTChunks (cs : List Series) : ℚ :=
  (cs.map sumT).sum

/-- The distinct derived keys present in one chunk, in first-encountered
order (chunk-local work of a distributed grouped reduction). -/
def chunkKeys (key : Int → Int) (c : Series) : List Int :=
  dedupFirst (c.map (fun p => key p.1))

/-- One chunk's partial sum for one group key (chunk-local work). -/
def chunkPartialSum (key : Int → Int) (k : Int) (c : Series) : ℚ :=
  ((c.filter (fun p => decide (key p.1 = k))).map Prod.snd).sum

/-- Chunked grouped reduction: merge the per-chunk key lists in
first-encountered order across chunks, then total the per-chunk partial
sums for each key — the cross-chunk combination of a distributed
grouped reduction. -/
def groupSumChunks (key : Int → Int) (cs : List Series) : List (Int × ℚ) :=
  (dedupFirst ((cs.map (chunkKeys key)).flatten)).map
    (fun k => (k, (cs.map (chunkPartialSum key k)).sum))

/-- The last present candidate among per-chunk options (combination of
per-chunk left-neighbor candidates). -/
def lastSome {α : Type} (os : List (Option α)) : Option α :=
  os.foldr (fun o acc => acc.or o) none

/-- The first present candidate among per-chunk options (combination of
per-chunk right-neighbor candidates). -/
def firstSome {α : Type} (os : List (Option α)) : Option α :=
  os.foldr (fun o acc => o.or acc) none

/-- Chunked interpolation: each chunk reports its own bracketing
candidates for each target; the candidates are combined across chunks
and the linear rule is applied to the combined pair — the cross-chunk
neighbor search of a distributed interpolation. -/
def interpChunks (ts : List Int) (cs : List Series) : List (Except InterpError ℚ) :=
  ts.map (fun t => nbLinear t
    (lastSome (cs.map (fun c => leftNb c t)))
    (firstSome (cs.map (fun c => rightNb c t))))

theorem sumTChunks_flatten (cs : List Series) :
    sumTChunks cs = sumT cs.flatten := by
  rw [sumTChunks, sumT, List.map_flatten, List.sum_flatten, List.map_map]
  rfl

/-- The elements of a key sequence not yet in the accumulator, in
first-encountered order — the contribution a sequence makes when folded
into a first-encountered-order de-duplication. -/
def newElems (acc : List Int) : List Int → List Int
  | [] => []
  | k :: l => if k ∈ acc then newElems acc l else k :: newElems (acc ++ [k]) l

theorem dedup_foldl_eq_append (l : List Int) :
    ∀ acc : List Int,
      l.foldl (fun acc k => if k ∈ acc then acc else acc ++ [k]) acc =
        acc ++ newElems acc l := by
  induction l with
  | nil => intro acc; simp [newElems]
  | cons k l ih =>
    intro acc
    rw [List.foldl_cons]
    by_cases hk : k ∈ acc
    · rw [if_pos hk, ih acc]
      simp [newElems, hk]
    · rw [if_neg hk, ih (acc ++ [k])]
      simp [newElems, hk]

theorem newElems_of_mem_iff (l : List Int) :
    ∀ acc₁ acc₂ : List Int, (∀ y : Int, y ∈ acc₁ ↔ y ∈ acc₂) →
      newElems acc₁ l = newElems acc₂ l := by
  induction l with
  | nil => intro _ _ _; rfl
  | cons k l ih =>
    intro acc₁ acc₂ h
    by_cases hk : k ∈ acc₁
    · have hk₂ : k ∈ acc₂ := (h k).mp hk
      simp only [newElems, if_pos hk, if_pos hk₂]
      exact ih acc₁ acc₂ h
    · have hk₂ : k ∉ acc₂ := fun hc => hk ((h k).mpr hc)
      simp only [newElems, if_neg hk, if_neg hk₂]
      refine congrArg (k :: ·) (ih (acc₁ ++ [k]) (acc₂ ++ [k]) fun y => ?_)
      simp [List.mem_append, h y]

theorem newElems_newElems (l : List Int) :
    ∀ t u : List Int, (∀ y ∈ u, y ∈ t) →
      newElems t (newElems u l) = newElems t l := by
  induction l with
  | nil => intro _ _ _; rfl
  | cons k l ih =>
    intro t u h
    by_cases hku : k ∈ u
    · have hkt : k ∈ t := h k hku
      simp only [newElems, if_pos hku, if_pos hkt]
      exact ih t u h
    · by_cases hkt : k ∈ t
      · simp only [newElems, if_neg hku, if_pos hkt]
        refine ih t (u ++ [k]) fun y hy => ?_
        rcases List.mem_append.mp hy with h1 | h2
        · exact h y h1
        · rw [List.mem_singleton.mp h2]; exact hkt
      · simp only [newElems, if_neg hku, if_neg hkt]
        refine congrArg (k :: ·) (ih (t ++ [k]) (u ++ [k]) fun y hy => ?_)
        rcases List.mem_append.mp hy with h1 | h2
        · exact List.mem_append.mpr (Or.inl (h y h1))
        · exact List.mem_append.mpr (Or.inr h2)

theorem dedupFirst_eq_newElems (l : List Int) :
    dedupFirst l = newElems [] l := by
  rw [dedupFirst, dedup_foldl_eq_append l []]
  rfl

theorem dedupFirst_fold_congr (l : List Int) (acc : List Int) :
    (dedupFirst l).foldl (fun acc k => if k ∈ acc then acc else acc ++ [k]) acc =
      l.foldl (fun acc k => if k ∈ acc then acc else acc ++ [k]) acc := by
  rw [dedup_foldl_eq_append, dedup_foldl_eq_append, dedupFirst_eq_newElems]
  exact congrArg (acc ++ ·)
    (newElems_newElems l acc [] fun y hy => absurd hy (List.not_mem_nil y))

theorem dedupFirst_flatten_dedup (M : List (List Int)) :
    dedupFirst ((M.map dedupFirst).flatten) = dedupFirst M.flatten := by
  suffices h : ∀ acc : List Int,
      ((M.map dedupFirst).flatten).foldl
          (fun acc k => if k ∈ acc then acc else acc ++ [k]) acc =
        (M.flatten).foldl
          (fun acc k => if k ∈ acc then acc else acc ++ [k]) acc from h []
  intro acc
  induction M generalizing acc with
  | nil => rfl
  | cons c M ih =>
    rw [List.map_cons, List.flatten_cons, List.flatten_cons,
      List.foldl_append, List.foldl_append, dedupFirst_fold_congr, ih]

theorem groupSumChunks_flatten (key : Int → Int) (cs : List Series) :
    groupSumChunks key cs = groupSumT key cs.flatten := by
  rw [groupSumChunks, groupSumT]
  have hkeys : dedupFirst ((cs.map (chunkKeys key)).flatten) =
      dedupFirst ((cs.flatten).map (fun p => key p.1)) := by
    have h1 : cs.map (chunkKeys key) =
        (cs.map (List.map (fun p => key p.1))).map dedupFirst := by
      rw [List.map_map]; rfl
    rw [h1, dedupFirst_flatten_dedup, ← List.map_flatten]
  rw [hkeys]
  refine List.map_congr_left fun k _ => ?_
  have hsum : (cs.map (chunkPartialSum key k)).sum =
      ((cs.flatten.filter (fun p => decide (key p.1 = k))).map Prod.snd).sum := by
    rw [List.filter_flatten, List.map_flatten, List.sum_flatten,
      List.map_map, List.map_map]
    rfl
  rw [hsum]

theorem getLast?_flatten_eq {α : Type} (ds : List (List α)) :
    ds.flatten.getLast? = lastSome (ds.map List.getLast?) := by
  induction ds with
  | nil => rfl
  | cons d ds ih =>
    rw [List.flatten_cons, List.getLast?_append, ih]
    rfl

theorem head?_flatten_eq {α : Type} (ds : List (List α)) :
    ds.flatten.head? = firstSome (ds.map List.head?) := by
  induction ds with
  | nil => rfl
  | cons d ds ih =>
    rw [List.flatten_cons, List.head?_append, ih]
    rfl

theorem leftNb_flatten (cs : List Series) (t : Int) :
    leftNb cs.flatten t = lastSome (cs.map (fun c => leftNb c t)) := by
  rw [leftNb, List.filter_flatten, getLast?_flatten_eq, List.map_map]
  rfl

theorem rightNb_flatten (cs : List Series) (t : Int) :
    rightNb cs.flatten t = firstSome (cs.map (fun c => rightNb c t)) := by
  rw [rightNb, List.filter_flatten, head?_flatten_eq, List.map_map]
  rfl

theorem interpChunks_flatten (ts : List Int) (cs : List Series) :
    interpChunks ts cs = interpT ts cs.flatten := by
  rw [interpChunks, interpT]
  refine List.map_congr_left fun t _ => ?_
  rw [leftNb_flatten, rightNb_flatten]

/-- Modelled from the spec: materialization (`compute`) of a deferred
operation chain — chunk the base series by the plan, run the chain's
chunk-local computations block by block, and concatenate the block
results into an eagerly-valued series. -/
def materializeC (plan : List Nat) (ops : List SOp) (s : Series) : Series :=
  (applySChainChunks ops (chunksBy plan s)).flatten

/-- Materialization of a chain ending in the total-sum reduction
terminal: combine the per-chunk partial sums. -/
def materializeSumC (plan : List Nat) (ops : List SOp) (s : Series) : ℚ :=
  sumTChunks (applySChainChunks ops (chunksBy plan s))

/-- Materialization of a chain ending in the grouped-reduction terminal:
merge per-chunk key lists and total per-chunk partial sums. -/
def materializeGroupC (plan : List Nat) (ops : List SOp) (key : Int → Int)
    (s : Series) : List (Int × ℚ) :=
  groupSumChunks key (applySChainChunks ops (chunksBy plan s))

/-- Materialization of a chain ending in the interpolation terminal:
combine per-chunk bracketing-neighbor candidates, then apply the linear
rule. -/
def materializeInterpC (plan : List Nat) (ops : List SOp) (ts : List Int)
    (s : Series) : List (Except InterpError ℚ) :=
  interpChunks ts (applySChainChunks ops (chunksBy plan s))

/-- C6: materializing a lazily-evaluated chain of deferred
selection/masking/arithmetic/merge-join operations — whether collected
as a series or fed into a total-sum, grouped-reduction or interpolation
terminal — returns the same values as eager immediate evaluation, and
the materialized result is value-for-value independent of the chosen
chunk plan (values are exact rationals, so no floating-point tolerance
is needed). -/
theorem materialize_chunk_invariant (plan1 plan2 : List Nat)
    (ops : List SOp) (key : Int → Int) (ts : List Int) (s : Series) :
    materializeC plan1 ops s = applySChain ops s ∧
      materializeC plan1 ops s = materializeC plan2 ops s ∧
      materializeSumC plan1 ops s = sumT (applySChain ops s) ∧
      materializeSumC plan1 ops s = materializeSumC plan2 ops s ∧
      materializeGroupC plan1 ops key s = groupSumT key (applySChain ops s) ∧
      materializeGroupC plan1 ops key s = materializeGroupC plan2 ops key s ∧
      materializeInterpC plan1 ops ts s = interpT ts (applySChain ops s) ∧
      materializeInterpC plan1 ops ts s = materializeInterpC plan2 ops ts s := by
  have hC : ∀ plan : List Nat, materializeC plan ops s = applySChain ops s := by
    intro plan
    rw [materializeC, applySChainChunks_flatten, chunksBy_flatten]
  have hS : ∀ plan : List Nat,
      materializeSumC plan ops s = sumT (applySChain ops s) := by
    intro plan
    rw [materializeSumC, sumTChunks_flatten, applySChainChunks_flatten,
      chunksBy_flatten]
  have hG : ∀ plan : List Nat,
      materializeGroupC plan ops key s = groupSumT key (applySChain ops s) := by
    intro plan
    rw [materializeGroupC, groupSumChunks_flatten, applySChainChunks_flatten,
      chunksBy_flatten]
  have hI : ∀ plan : List Nat,
      materializeInterpC plan ops ts s = interpT ts (applySChain ops s) := by
    intro plan
    rw [materializeInterpC, interpChunks_flatten, applySChainChunks_flatten,
      chunksBy_flatten]
  exact ⟨hC plan1, (hC plan1).trans (hC plan2).symm,
    hS plan1, (hS plan1).trans (hS plan2).symm,
    hG plan1, (hG plan1).trans (hG plan2).symm,
    hI plan1, (hI plan1).trans (hI plan2).symm⟩

end EOCube
